import Mathlib

/-!
A shallow embedding of `src/script.js`, a sequential script loader with
document.write capture and replay.  JavaScript values are modelled with
explicit Lean types: optional strings keep the JS truthiness convention
(`none` models `undefined` / `null` / an absent property, and the empty
string is falsy), a step that can raise returns an explicit raised flag,
and the single-threaded callback-driven control flow is modelled by state
passing over a `Sys` record together with an event trace that records the
observable actions (executor invocation, callback calls, placeholder
manipulation, and the completion signal `endFunction`).
-/

namespace ScriptJs

/-- JS truthiness of an optional string property: an absent value and the
empty string are falsy, every other string is truthy. -/
def jsTruthy : Option String → Bool
  | none => false
  | some s => s != ""

/-- The construction-time failures thrown by the public entry point
(`throw` statements at script.js lines 265 and 268). -/
inductive ScriptError where
  | noArguments
  | srcRequired
  deriving DecidableEq

/-- The argument of one call to the public entry point `script(args)`:
absent / undefined, a bare string, or a structured object whose `src`
property is modelled with JS truthiness (`none` for absent). -/
inductive JsArg where
  | undef
  | str (s : String)
  | obj (src : Option String)
  deriving DecidableEq

/-- JS truthiness of the whole argument (`if ( ! args ) throw ...`):
`undefined` and the empty string are falsy; any object is truthy. -/
def argFalsy : JsArg → Bool
  | .undef => true
  | .str s => s == ""
  | .obj _ => false

/-- The argument validation and string-shorthand normalization of
`script(args)` (script.js lines 264-269): reject a falsy argument, turn a
bare string into `{ src: args }`, and reject a structured argument whose
`src` is falsy.  Returns the normalized `src`. -/
def validateArgs : JsArg → Except ScriptError String
  | .undef => .error .noArguments
  | .str s => if s == "" then .error .noArguments else .ok s
  | .obj src =>
      match src with
      | some v => if v == "" then .error .srcRequired else .ok v
      | none => .error .srcRequired

/-- Whether validation threw. -/
def isError : Except ScriptError String → Bool
  | .error _ => true
  | .ok _ => false

/-- `s.substring(0, n)`: the first `n` characters (working on the
character list keeps the definition computable inside the kernel). -/
def takeChars (n : Nat) (s : String) : String := ⟨s.data.take n⟩

/-- `base = base[last] == '/' ? base.substring(0, last) : base`
(script.js line 277): strip one trailing slash, if present. -/
def stripTrailingSlash (b : String) : String :=
  if b.data.getLast? = some '/' then ⟨b.data.dropLast⟩ else b

/-- The relative-source resolution of script.js lines 275-279:
`if ( opts.base && opts.src.substring(0, 4) !== 'http' )` prepend the
(slash-stripped) base and a slash.  A falsy `base` (absent or empty)
leaves `src` alone. -/
def resolveSrc (base : Option String) (src : String) : String :=
  match base with
  | none => src
  | some b =>
      if b ≠ "" ∧ takeChars 4 src ≠ "http" then stripTrailingSlash b ++ "/" ++ src
      else src

/-- The inline markup written by `script(args)` before the ready
transition (script.js lines 315-330): for a deferred request a
placeholder `div` (holding `loadingHTML` when that is truthy, otherwise a
styling attribute with the misspelled property name `diplay`), for a
non-deferred request a literal script tag. -/
def requestContent (defer : Bool) (id src : String) (loadingHTML : Option String) : String :=
  if defer then
    "<div id=\"" ++ id ++ "\"" ++
      (if jsTruthy loadingHTML then ">" ++ loadingHTML.getD ""
       else " style=\"diplay: none;\">") ++
      "</div>"
  else
    "<script id=\"" ++ id ++ "\" src=\"" ++ src ++ "\"></script>"

/-- State of the de-duplicated load handler installed at script.js lines
163-175: the `done` flag, whether `onload` / `onreadystatechange` are
still attached (they are nulled on the first qualifying signal), and how
many times the handler body (`handleScriptLoaded` plus `endFunction`) has
run. -/
structure HandlerState where
  done : Bool
  attached : Bool
  runs : Nat
  deriving DecidableEq

/-- Handler state right after subscription: `var done = false;` with both
host hooks assigned. -/
def initHandlerState : HandlerState := { done := false, attached := true, runs := 0 }

/-- The guard condition of the handler:
`! this.readyState || this.readyState === "loaded" || this.readyState === "complete"`.
The element readyState observed when a host signal fires is modelled as an
optional string (`none` for hosts without a readyState property). -/
def readyQualifies (rs : Option String) : Bool :=
  !(jsTruthy rs) || rs == some "loaded" || rs == some "complete"

/-- One underlying host signal (an `onload` or `onreadystatechange`
delivery observing readyState `rs`) hitting the handler of script.js
lines 164-175: nothing happens once the hooks are nulled; otherwise the
body runs only when `done` is still false and the readyState qualifies,
and in that case `done` is set and the hooks are nulled. -/
def fireReadySignal (h : HandlerState) (rs : Option String) : HandlerState :=
  if h.attached then
    if !h.done && readyQualifies rs then
      { done := true, attached := false, runs := h.runs + 1 }
    else h
  else h

/-- A whole sequence of underlying host signals delivered in order. -/
def fireReadySignals (h : HandlerState) (sigs : List (Option String)) : HandlerState :=
  sigs.foldl fireReadySignal h

/-! ## The document, the capture buffer and the event trace -/

/-- The kinds of observable actions recorded while the loader runs. -/
inductive EKind where
  | loadInvoked
  | scriptAppended
  | loadedCalled
  | placeholderLookup
  | nodeMoved
  | placeholderRemoved
  | completeCalled
  | signal
  deriving DecidableEq

/-- One trace event: the id of the request it belongs to, and its kind.
`signal` marks the invocation of `endFunction`, the completion signal the
scheduler uses to start the next request. -/
structure Event where
  id : String
  k : EKind
  deriving DecidableEq

/-- A node of the host document body, as far as the loader observes it.
`scriptElem` carries a `ref` marker modelling the JS object reference the
executor holds on the element it created (the deferred script element
never receives an id attribute; an inline one does).  `synthDiv` is the
anchor div synthesized by `handleScriptLoaded` when no placeholder exists
(`document.createElement('div')`, which has no id); keeping it as its own
constructor models the fact that the executor addresses it by reference,
never by id.  `frag` is an opaque parsed markup fragment. -/
inductive DomNode where
  | scriptElem (ref : String) (id : Option String) (src : String)
  | divElem (id : Option String) (hidden : Bool) (children : List DomNode)
  | synthDiv (owner : String) (hidden : Bool) (children : List DomNode)
  | frag (text : String)

/-- The id attribute of a node (`synthDiv` and `frag` have none). -/
def nodeId : DomNode → Option String
  | .scriptElem _ i _ => i
  | .divElem i _ _ => i
  | .synthDiv _ _ _ => none
  | .frag _ => none

/-- The two incremental-write entry points and their capturing stand-ins,
as first-class values: `WFn` models the identity of the function object
currently stored in `document.write` / `document.writeln` or saved in the
module variables `docWrite` / `docWriteln`. -/
inductive WFn where
  | origWrite
  | origWriteln
  | tempWrite
  | tempWriteln
  deriving DecidableEq

/-- The mutable state the loader closes over: the current bindings of the
document write entry points, the saved originals (`docWrite`,
`docWriteln`, `null` when nothing is saved), the capture buffer `writes`
(`null` or a fragment list), the document body as an ordered sibling
list, and the event trace. -/
structure Sys where
  documentWrite : WFn
  documentWriteln : WFn
  docWrite : Option WFn
  docWriteln : Option WFn
  writes : Option (List String)
  body : List DomNode
  trace : List Event

/-- A computation step: it transforms the state and reports whether a JS
exception is propagating when it finishes (state changes made before a
throw are kept, as in JS). -/
abbrev Run := Sys → Sys × Bool

/-- The step that does nothing and returns normally. -/
def pureRun : Run := fun s => (s, false)

/-- `try { body } finally { fin }`: the finalizer always runs on the state
the body left behind; the computation is propagating an exception
afterwards when either part threw. -/
def tryFinally (body fin : Run) : Run := fun s =>
  let r := body s
  let r2 := fin r.1
  (r2.1, r.2 || r2.2)

/-- Append one event to the trace. -/
def logEv (e : Event) (s : Sys) : Sys := { s with trace := s.trace ++ [e] }

/-- Shorthand for the completion-signal event of a request. -/
def sigEv (i : String) : Event := { id := i, k := .signal }

/-- Shorthand for the executor-invocation event of a request. -/
def invEv (i : String) : Event := { id := i, k := .loadInvoked }

/-- The events a single cycle emits between its executor invocation and
its completion signal: all tagged with that request id, and never an
invocation or signal event themselves. -/
def tailTagged (i : String) (δ : List Event) : Prop :=
  ∀ e ∈ δ, e.id = i ∧ e.k ≠ EKind.signal ∧ e.k ≠ EKind.loadInvoked

/-! ## Write Interceptor / Capture Buffer (script.js lines 85-110) -/

/-- `tempDocWrite` (script.js lines 86-96): the `document.write`
stand-in.  A truthy first argument is pushed onto the capture buffer
(created on first use); a missing or falsy argument is logged and
discarded. -/
def tempDocWrite (arg : Option String) (s : Sys) : Sys :=
  match arg with
  | some a => if a ≠ "" then { s with writes := some (s.writes.getD [] ++ [a]) } else s
  | none => s

/-- `tempDocWriteln` (script.js line 97): `tempDocWrite(str + '\n')`.
JS string coercion turns a missing argument into the text "undefined". -/
def tempDocWriteln (arg : Option String) (s : Sys) : Sys :=
  tempDocWrite (some (arg.getD "undefined" ++ "\n")) s

/-- `overrideDocWrites` (script.js lines 100-105): save the current entry
points into `docWrite` / `docWriteln` when nothing is saved yet
(`if ( ! docWrite ) docWrite = document.write`), then install the
capturing stand-ins. -/
def overrideDocWrites (s : Sys) : Sys :=
  let s1 := match s.docWrite with
    | none => { s with docWrite := some s.documentWrite }
    | some _ => s
  let s2 := match s1.docWriteln with
    | none => { s1 with docWriteln := some s1.documentWriteln }
    | some _ => s1
  { s2 with documentWrite := .tempWrite, documentWriteln := .tempWriteln }

/-- `restoreDocWrites` (script.js lines 106-110): put the saved originals
back (each guarded by truthiness of the saved slot) and null the saved
slots. -/
def restoreDocWrites (s : Sys) : Sys :=
  let s1 := match s.docWrite with
    | some f => { s with documentWrite := f }
    | none => s
  let s2 := match s1.docWriteln with
    | some f => { s1 with documentWriteln := f }
    | none => s1
  { s2 with docWrite := none, docWriteln := none }

/-- `writes = null` — the capture buffer is cleared for the next load. -/
def clearWrites (s : Sys) : Sys := { s with writes := none }

/-- A native `document.write` during document construction appends parsed
markup at the end of the body (a truthy argument only). -/
def nativeWrite (arg : Option String) (s : Sys) : Sys :=
  match arg with
  | some a => if a ≠ "" then { s with body := s.body ++ [.frag a] } else s
  | none => s

/-- A call `document.write(arg)` made by a loading script: it is
dispatched through whatever function object is currently bound to the
entry point. -/
def callDocumentWrite (arg : Option String) (s : Sys) : Sys :=
  match s.documentWrite with
  | .tempWrite => tempDocWrite arg s
  | .origWrite => nativeWrite arg s
  | _ => s

/-- A call `document.writeln(arg)` made by a loading script, dispatched
the same way. -/
def callDocumentWriteln (arg : Option String) (s : Sys) : Sys :=
  match s.documentWriteln with
  | .tempWriteln => tempDocWriteln arg s
  | .origWriteln => nativeWrite (some (arg.getD "undefined" ++ "\n")) s
  | _ => s

/-- One write call issued by the fetched script while it executes. -/
inductive ScriptWrite where
  | w (arg : Option String)
  | wln (arg : Option String)

/-- The sequence of write calls the fetched script makes, in order. -/
def applyScriptWrites : List ScriptWrite → Sys → Sys
  | [], s => s
  | .w a :: rest, s => applyScriptWrites rest (callDocumentWrite a s)
  | .wln a :: rest, s => applyScriptWrites rest (callDocumentWriteln a s)

/-! ## Requests -/

/-- How a caller-supplied `loaded` / `complete` callback behaves when
invoked: it returns `false` (`===` comparison), returns any other value,
or throws.  The callbacks are opaque to the loader; only this much of
their behaviour is observable to it. -/
inductive CbBehavior where
  | retFalse
  | retOther
  | throws
  deriving DecidableEq

/-- The placement strategy of a request, restricted to the two defaults
the source installs (script.js lines 321-326 and 338-343): insert the new
script element immediately before the placeholder div looked up by id, or
append it at the end of the body.  (A caller-supplied append function is
an arbitrary foreign callback and is outside this model.) -/
inductive AppendMode where
  | beforePlaceholder
  | bodyAppend
  deriving DecidableEq

/-- A normalized load request, together with the behaviour of its foreign
collaborators: what its callbacks do and what the fetched script writes
while executing.  `type` / `charset` attributes are not modelled (no
claim mentions them). -/
structure Opts where
  src : String
  id : String
  defer : Bool
  loaded : Option CbBehavior
  complete : Option CbBehavior
  order : Option Nat
  append : AppendMode
  loadingHTML : Option String
  scriptWrites : List ScriptWrite

/-! ## Generic sibling-list operations of the host DOM -/

/-- First node satisfying a predicate (`document.getElementById` style
lookup and reference-based addressing both reduce to this). -/
def updateFirst (p : DomNode → Bool) (f : DomNode → DomNode) : List DomNode → List DomNode
  | [] => []
  | n :: ns => if p n then f n :: ns else n :: updateFirst p f ns

/-- Remove the first node satisfying a predicate
(`parentNode.removeChild`). -/
def removeFirst (p : DomNode → Bool) : List DomNode → List DomNode
  | [] => []
  | n :: ns => if p n then ns else n :: removeFirst p ns

/-- Insert `x` immediately after the first node satisfying `p`.  This is
`appendNode` of script.js lines 134-141: when the script element has a
next sibling, `insertBefore(x, nextSibling)`, otherwise `appendChild(x)`
— both put `x` immediately after the script element.  When no node
matches, the insertion falls to the end of the body. -/
def insertAfterFirst (p : DomNode → Bool) (x : DomNode) : List DomNode → List DomNode
  | [] => [x]
  | n :: ns => if p n then n :: x :: ns else n :: insertAfterFirst p x ns

/-- Insert `x` immediately before the first node satisfying `p`
(`parentNode.insertBefore(x, target)`). -/
def insertBeforeFirst (p : DomNode → Bool) (x : DomNode) : List DomNode → List DomNode
  | [] => [x]
  | n :: ns => if p n then x :: n :: ns else n :: insertBeforeFirst p x ns

/-- `document.getElementById(i)`: the first node carrying that id. -/
def getById (b : List DomNode) (i : String) : Option DomNode :=
  b.find? fun n => nodeId n == some i

/-- Whether some node carries the id `i`. -/
def hasId (i : String) (b : List DomNode) : Bool :=
  b.any fun n => nodeId n == some i

/-- The reference the executor holds on the script element it created:
the first script element tagged with the request id. -/
def scriptRefP (i : String) : DomNode → Bool
  | .scriptElem r _ _ => r == i
  | _ => false

/-- The reference the handler holds on its placeholder: either the node
`getElementById(opts.id)` found (addressed by its id), or the anchor div
it synthesized (addressed as the synthetic node it owns). -/
def targetDivP (i : String) (useSynth : Bool) (n : DomNode) : Bool :=
  if useSynth then
    match n with
    | .synthDiv ow _ _ => ow == i
    | _ => false
  else nodeId n == some i

/-- `$div.style.display = 'none'; $div.innerHTML = markup` — hide the
container and replace its children with the parsed markup (a non
container node is left unchanged; the handler only ever addresses its
placeholder div or synthesized anchor div this way). -/
def setContentFn (kids : List DomNode) : DomNode → DomNode
  | .divElem i _ _ => .divElem i true kids
  | .synthDiv ow _ _ => .synthDiv ow true kids
  | n => n

/-- `$div.removeChild($div.childNodes[0])` — drop the first child. -/
def dropFirstChild : DomNode → DomNode
  | .divElem i h cs => .divElem i h cs.tail
  | .synthDiv ow h cs => .synthDiv ow h cs.tail
  | n => n

/-- Current children of the handler placeholder (the live NodeList the
loop of script.js lines 151-157 re-reads). -/
def divChildren (i : String) (useSynth : Bool) (b : List DomNode) : List DomNode :=
  match b.find? (targetDivP i useSynth) with
  | some (.divElem _ _ cs) => cs
  | some (.synthDiv _ _ cs) => cs
  | _ => []

/-- `$script.id = null` on the element looked up by id (synchronous
path). -/
def clearIdFn : DomNode → DomNode
  | .scriptElem r _ src => .scriptElem r none src
  | .divElem _ h cs => .divElem none h cs
  | n => n

/-- Host parsing of markup assigned through `innerHTML`, abstracted: the
captured markup is kept as a single opaque fragment node, and empty
markup parses to no nodes.  The loader never inspects the parse result;
it only moves the resulting nodes. -/
def parseHTML (h : String) : List DomNode :=
  if h = "" then [] else [.frag h]

/-! ## The Single-Load Executor (script.js lines 113-191) -/

/-- The new script element of a deferred load
(`document.createElement('script'); $script.src = opts.src;`): tagged
with the request id as its reference marker; it has no id attribute. -/
def scriptNodeOf (o : Opts) : DomNode := .scriptElem o.id none o.src

/-- `opts.append($script)` for the two default strategies.  The deferred
default of the enqueue path looks the placeholder up by id and inserts
the script element before it; when the placeholder is missing that code
dereferences null and throws, which aborts the load (no handler will ever
fire), so the step raises. -/
def appendScriptRun (o : Opts) : Run := fun s =>
  match o.append with
  | .bodyAppend =>
      (logEv { id := o.id, k := .scriptAppended }
        { s with body := s.body ++ [scriptNodeOf o] }, false)
  | .beforePlaceholder =>
      if hasId o.id s.body then
        (logEv { id := o.id, k := .scriptAppended }
          { s with body := insertBeforeFirst (fun n => nodeId n == some o.id) (scriptNodeOf o) s.body },
         false)
      else (s, true)

/-- `if ( completeCallback ) completeCallback.call($script);` -/
def callCompleteCb (o : Opts) : Run := fun s =>
  match o.complete with
  | none => (s, false)
  | some .throws => (logEv { id := o.id, k := .completeCalled } s, true)
  | some _ => (logEv { id := o.id, k := .completeCalled } s, false)

/-- The move loop of script.js lines 151-157.  Each iteration re-reads
the first remaining child of the (live) placeholder, removes it there and
re-inserts it immediately after the script element (the code re-reads
`$script.nextSibling` on every `appendNode` call).  Every iteration
removes one child and none adds any, so the initial child count bounds
the iterations; the count is passed as fuel. -/
def moveLoop (i : String) (useSynth : Bool) : Nat → Sys → Sys
  | 0, s => s
  | n + 1, s =>
      match divChildren i useSynth s.body with
      | [] => s
      | c :: _ =>
          let s1 := { s with body := updateFirst (targetDivP i useSynth) dropFirstChild s.body }
          let s2 := { s1 with body := insertAfterFirst (scriptRefP i) c s1.body }
          moveLoop i useSynth n (logEv { id := i, k := .nodeMoved } s2)

/-- The reinsertion part of `handleScriptLoaded` (script.js lines
129-160), run after the `loaded` callback did not veto: resolve the
placeholder by id; when writes were captured, synthesize an anchor div
after the script element if no placeholder exists, hide the container and
assign the concatenated fragments through `innerHTML`, move its children
one at a time to just after the script element, then remove the (now
empty) container; when nothing was captured, just remove the placeholder
if one exists; finally invoke the `complete` callback. -/
def handleRest (o : Opts) : Run := fun s =>
  let dFound := getById s.body o.id
  let s := logEv { id := o.id, k := .placeholderLookup } s
  match s.writes with
  | some ws =>
      let useSynth := dFound.isNone
      let s :=
        if useSynth then
          { s with body := insertAfterFirst (scriptRefP o.id) (.synthDiv o.id false []) s.body }
        else s
      let kids := parseHTML (String.join ws)
      let s := { s with body := updateFirst (targetDivP o.id useSynth) (setContentFn kids) s.body }
      let s := moveLoop o.id useSynth kids.length s
      let s := logEv { id := o.id, k := .placeholderRemoved }
        { s with body := removeFirst (targetDivP o.id useSynth) s.body }
      callCompleteCb o s
  | none =>
      match dFound with
      | some _ =>
          callCompleteCb o (logEv { id := o.id, k := .placeholderRemoved }
            { s with body := removeFirst (targetDivP o.id false) s.body })
      | none => callCompleteCb o s

/-- `handleScriptLoaded` (script.js lines 124-161): invoke the `loaded`
callback against the new element with the captured fragments
(`writes || undefined`); a `=== false` return value exits the whole
handler right here (skipping reinsertion, placeholder removal and the
`complete` callback); a throw propagates. -/
def handleScriptLoaded (o : Opts) : Run := fun s =>
  match o.loaded with
  | some .throws => (logEv { id := o.id, k := .loadedCalled } s, true)
  | some .retFalse => (logEv { id := o.id, k := .loadedCalled } s, false)
  | some .retOther => handleRest o (logEv { id := o.id, k := .loadedCalled } s)
  | none => handleRest o s

/-- The completion signal: `endFunction && endFunction()` — record the
signal event, then run the continuation the scheduler supplied. -/
def fireEnd (i : String) (endFun : Run) : Run := fun s =>
  endFun (logEv (sigEv i) s)

/-- The `loaded` callback invocation of the synchronous path (the return
value is deliberately ignored there, script.js line 183). -/
def callLoadedNoRet (o : Opts) : Run := fun s =>
  match o.loaded with
  | none => (s, false)
  | some .throws => (logEv { id := o.id, k := .loadedCalled } s, true)
  | some _ => (logEv { id := o.id, k := .loadedCalled } s, false)

/-- The try-block of the synchronous path (script.js lines 181-185):
`loaded` then `complete`, the second skipped when the first throws. -/
def syncCbs (o : Opts) : Run := fun s =>
  let r := callLoadedNoRet o s
  if r.2 then r else callCompleteCb o r.1

/-- `loadScript(opts, endFunction)` (script.js lines 113-191), the
Single-Load Executor.

Deferred mode: create the script element, subscribe the de-duplicated
ready handler, and hand the element to the placement strategy; the
fetched script then executes (its writes go through whatever is bound to
`document.write`), the ready signal fires once, and the handler runs
`try { handleScriptLoaded() } finally { endFunction && endFunction() }`.
The handler body runs exactly once however many host signals arrive —
that de-duplication is modelled separately by `fireReadySignals`.  When
the placement strategy itself throws, the element never enters the
document, no ready signal ever fires, and the completion signal is never
sent.

Synchronous mode: the element is looked up by id; `loaded` then
`complete` run inside a try whose finally clears the element id and fires
the completion signal.  When the lookup found nothing the finally itself
throws on `$script.id = null` and the completion signal is skipped. -/
def loadScriptRun (o : Opts) (endFun : Run) : Run := fun s =>
  let s := logEv (invEv o.id) s
  if o.defer then
    let r := appendScriptRun o s
    if r.2 then r
    else
      let s1 := applyScriptWrites o.scriptWrites r.1
      tryFinally (handleScriptLoaded o) (fireEnd o.id endFun) s1
  else
    let dFound := getById s.body o.id
    let r := syncCbs o s
    match dFound with
    | none => (r.1, true)
    | some _ =>
        let s2 := { r.1 with body := updateFirst (fun n => nodeId n == some o.id) clearIdFn r.1.body }
        let r2 := fireEnd o.id endFun s2
        (r2.1, r.2 || r2.2)

/-! ## The Sequential Scheduler (script.js lines 194-222) -/

/-- Draining the frozen worklist front to back (`yieldNext` /
`loadAndYieldNext`): each request is wrapped by `overrideDocWrites`, run
through the executor, and given the continuation that restores the entry
points, clears the capture buffer and yields the next request. -/
def drainFrom : List Opts → Run
  | [] => pureRun
  | o :: rest => fun s =>
      loadScriptRun o
        (fun s2 => drainFrom rest (clearWrites (restoreDocWrites s2)))
        (overrideDocWrites s)

/-- The state and exception flag a deferred cycle reaches just before its
completion signal: override, executor invocation, element insertion, the
script writes, and the handler. -/
def cycleOut (o : Opts) (s : Sys) : Sys × Bool :=
  let s0 := logEv (invEv o.id) (overrideDocWrites s)
  let r := appendScriptRun o s0
  if r.2 then r
  else handleScriptLoaded o (applyScriptWrites o.scriptWrites r.1)

/-- The state the scheduler hands to the next request: the cycle state
after the completion signal fired, the originals were restored and the
capture buffer was cleared. -/
def afterCycle (o : Opts) (s : Sys) : Sys :=
  clearWrites (restoreDocWrites (logEv (sigEv o.id) (cycleOut o s).1))

/-- Enqueueing into the pending worklist (script.js lines 332-334):
without `order` the request is pushed at the back; with `order` it is
spliced in at that position (`Array.splice` clamps an index beyond the
end to the end). -/
def spliceInsert (k : Nat) (o : Opts) : List Opts → List Opts
  | [] => [o]
  | x :: xs =>
      match k with
      | 0 => o :: x :: xs
      | k + 1 => x :: spliceInsert k o xs

/-- `if (order == null) scripts.push(opts); else scripts.splice(order, 0, opts);` -/
def enqueue (q : List Opts) (o : Opts) : List Opts :=
  match o.order with
  | none => q ++ [o]
  | some k => spliceInsert k o q

/-- Whether the placement step of a request succeeds on a given body:
body appends always do, the placeholder strategy needs its placeholder
present. -/
def appendOk (o : Opts) (b : List DomNode) : Prop :=
  o.append = .bodyAppend ∨ hasId o.id b = true

instance (o : Opts) (b : List DomNode) : Decidable (appendOk o b) := by
  unfold appendOk
  infer_instance

/-- The ids of a worklist, in order. -/
def ids (L : List Opts) : List String := L.map (·.id)

/-- The system right after the ready transition of a fresh document: the
original entry points bound, nothing saved, no captured writes, and an
empty trace (the body is arbitrary). -/
def initSys (b : List DomNode) : Sys :=
  { documentWrite := .origWrite, documentWriteln := .origWriteln,
    docWrite := none, docWriteln := none, writes := none, body := b, trace := [] }

/-- A plain deferred request used by concrete instantiations. -/
def sampleOpts (i : String) : Opts :=
  { src := i ++ ".js", id := i, defer := true, loaded := none, complete := none,
    order := none, append := .bodyAppend, loadingHTML := none, scriptWrites := [] }

/-- A deferred request whose `loaded` callback vetoes the reinsertion by
returning `false`, while a `complete` callback is supplied and the script
wrote one fragment. -/
def vetoOpts : Opts :=
  { src := "a.js", id := "a", defer := true, loaded := some .retFalse,
    complete := some .retOther, order := none, append := .bodyAppend,
    loadingHTML := none, scriptWrites := [.w (some "<b>x</b>")] }

/-- A synchronous-mode request whose `loaded` callback throws (its
inline script tag is assumed present in the body). -/
def syncOpts : Opts :=
  { src := "s.js", id := "s", defer := false, loaded := some .throws,
    complete := some .retOther, order := none, append := .bodyAppend,
    loadingHTML := none, scriptWrites := [] }

/-!
## Theorems

First the claims about the pure helpers (argument validation, base
resolution, the capture stand-ins, the placeholder markup and the
de-duplicated ready handler), then the scheduler and executor claims.
-/

/-- C6 (counterexample): the bare empty-string argument is a string
argument, yet the entry point rejects it — `if ( ! args ) throw` already
fires on it because the empty string is falsy in JS, so a bare string
argument is not always accepted, contrary to the claim. -/
theorem c6_counterexample :
    validateArgs (.str "") = .error .noArguments := rfl

/-- C6 (amended): the public entry point throws exactly when the argument
is absent or falsy (including the bare empty string), or when a
structured argument carries no truthy `src`; a nonempty bare string is
treated as a structured argument whose source is that string and is never
rejected. -/
theorem c6_validation :
    (∀ a : JsArg, isError (validateArgs a) = true ↔
      (argFalsy a = true ∨ ∃ src, a = .obj src ∧ jsTruthy src = false)) ∧
    (∀ s : String, s ≠ "" → validateArgs (.str s) = .ok s) := by
  constructor
  · intro a
    cases a with
    | undef => simp [validateArgs, isError, argFalsy]
    | str s =>
        by_cases h : s = "" <;> simp [validateArgs, isError, argFalsy, h]
    | obj src =>
        cases src with
        | none => simp [validateArgs, isError, argFalsy, jsTruthy]
        | some v =>
            by_cases h : v = "" <;> simp [validateArgs, isError, argFalsy, jsTruthy, h]
  · intro s h
    simp [validateArgs, h]

/-- C6 witness: a structured argument without `src` is rejected, and a
nonempty bare string is accepted as its own source. -/
theorem c6_validation_witness :
    isError (validateArgs (.obj none)) = true ∧ validateArgs (.str "a.js") = .ok "a.js" :=
  ⟨(c6_validation.1 (.obj none)).mpr (Or.inr ⟨none, rfl, rfl⟩),
   c6_validation.2 "a.js" (by decide)⟩

/-- C7 (counterexample): a request carrying the base option with the
empty-string value is left unresolved (`opts.base` is falsy), so the
claimed resolution formula fails for it: the code returns `"a.js"`, not
`"" + "/" + "a.js"`. -/
theorem c7_counterexample :
    resolveSrc (some "") "a.js" = "a.js" ∧
    resolveSrc (some "") "a.js" ≠ stripTrailingSlash "" ++ "/" ++ "a.js" := by
  constructor
  · decide
  · decide

/-- C7 (amended): for every request with a nonempty base option, a source
whose first four characters are not "http" resolves to the slash-stripped
base, a slash, and the source, while a source that starts with "http"
ignores the base and is unchanged. -/
theorem c7_base_resolution (b src : String) (hb : b ≠ "") :
    (takeChars 4 src ≠ "http" → resolveSrc (some b) src = stripTrailingSlash b ++ "/" ++ src) ∧
    (takeChars 4 src = "http" → resolveSrc (some b) src = src) := by
  constructor
  · intro h
    simp [resolveSrc, hb, h]
  · intro h
    simp [resolveSrc, h]

/-- C7 witness: the two concrete resolutions named by the claim. -/
theorem c7_base_resolution_witness :
    resolveSrc (some "http://example.com/lib/") "a.js" = "http://example.com/lib/a.js" ∧
    resolveSrc (some "http://example.com/lib/") "http://other.com/a.js" = "http://other.com/a.js" := by
  constructor
  · have h := (c7_base_resolution "http://example.com/lib/" "a.js" (by decide)).1 (by decide)
    rw [h]
    decide
  · exact (c7_base_resolution "http://example.com/lib/" "http://other.com/a.js" (by decide)).2
      (by decide)

/-- C9: the capturing `document.write` stand-in silently discards a
missing or falsy first argument, leaving the whole state (in particular
the capture buffer, and hence the fragments later handed to `loaded` or
replayed) untouched; and the `writeln` stand-in forwards its argument
with a newline appended. -/
theorem c9_capture_writes :
    (∀ (arg : Option String) (s : Sys), jsTruthy arg = false → tempDocWrite arg s = s) ∧
    (∀ (str : String) (s : Sys), tempDocWriteln (some str) s = tempDocWrite (some (str ++ "\n")) s) := by
  constructor
  · intro arg s h
    cases arg with
    | none => rfl
    | some a =>
        simp only [jsTruthy, bne_eq_false_iff_eq] at h
        simp [tempDocWrite, h]
  · intro str s
    rfl

/-- C9 witness: an empty-string write is dropped and a `writeln` call
buffers its argument plus a newline. -/
theorem c9_capture_writes_witness :
    tempDocWrite (some "") (initSys []) = initSys [] ∧
    tempDocWriteln (some "x") (initSys []) = tempDocWrite (some "x\n") (initSys []) :=
  ⟨c9_capture_writes.1 (some "") (initSys []) (by decide),
   c9_capture_writes.2 "x" (initSys [])⟩

/-- C10: for a deferred request without `loadingHTML` the inline
placeholder markup is exactly the div with the misspelled style property
name `diplay` (so the styling attribute does not actually hide the
default placeholder). -/
theorem c10_placeholder_markup (id src : String) (loadingHTML : Option String)
    (h : jsTruthy loadingHTML = false) :
    requestContent true id src loadingHTML =
      "<div id=\"" ++ id ++ "\" style=\"diplay: none;\"></div>" := by
  simp only [requestContent, h, if_true, Bool.false_eq_true, if_false]
  apply String.ext
  simp [String.data_append]

/-- C10 witness: the concrete markup for id "g". -/
theorem c10_placeholder_markup_witness :
    requestContent true "g" "a.js" none = "<div id=\"g\" style=\"diplay: none;\"></div>" :=
  c10_placeholder_markup "g" "a.js" none rfl

/-- Once the ready handler detached itself (or was never attached), later
host signals change nothing. -/
theorem fireReadySignals_detached (sigs : List (Option String)) (h : HandlerState)
    (ha : h.attached = false) : fireReadySignals h sigs = h := by
  induction sigs generalizing h with
  | nil => rfl
  | cons a rest ih =>
      have h1 : fireReadySignal h a = h := by simp [fireReadySignal, ha]
      simp only [fireReadySignals, List.foldl_cons]
      rw [show List.foldl fireReadySignal (fireReadySignal h a) rest
            = fireReadySignals (fireReadySignal h a) rest from rfl, h1]
      exact ih h ha

/-- While the handler is armed (attached, not yet done), a signal
sequence runs the body once when it contains a qualifying signal and not
at all otherwise. -/
theorem fireReadySignals_armed (sigs : List (Option String)) (h : HandlerState)
    (ha : h.attached = true) (hd : h.done = false) :
    (fireReadySignals h sigs).runs =
      h.runs + (if sigs.any readyQualifies then 1 else 0) := by
  induction sigs generalizing h with
  | nil => simp [fireReadySignals]
  | cons a rest ih =>
      simp only [fireReadySignals, List.foldl_cons]
      by_cases hq : readyQualifies a
      · have h1 : fireReadySignal h a =
            { done := true, attached := false, runs := h.runs + 1 } := by
          simp [fireReadySignal, ha, hd, hq]
        rw [show List.foldl fireReadySignal (fireReadySignal h a) rest
              = fireReadySignals (fireReadySignal h a) rest from rfl, h1,
            fireReadySignals_detached rest _ rfl]
        simp [List.any_cons, hq]
      · have h1 : fireReadySignal h a = h := by
          simp [fireReadySignal, ha, hd, hq]
        rw [show List.foldl fireReadySignal (fireReadySignal h a) rest
              = fireReadySignals (fireReadySignal h a) rest from rfl, h1, ih h ha hd]
        simp [List.any_cons, hq]

/-- C8: however many underlying host signals are delivered to a freshly
subscribed load handler, as long as at least one of them qualifies
(`onload`, i.e. no readyState, or readystatechange at "loaded" or
"complete"), the handler body runs exactly once. -/
theorem c8_handler_once (sigs : List (Option String))
    (h : sigs.any readyQualifies = true) :
    (fireReadySignals initHandlerState sigs).runs = 1 := by
  rw [fireReadySignals_armed sigs initHandlerState rfl rfl]
  simp [h, initHandlerState]

/-- C8 witness: a burst of four signals — a non-qualifying
readystatechange, then "loaded", then "complete", then a late onload —
runs the body once. -/
theorem c8_handler_once_witness :
    (fireReadySignals initHandlerState
      [some "loading", some "loaded", some "complete", none]).runs = 1 :=
  c8_handler_once [some "loading", some "loaded", some "complete", none] (by decide)

/-! ### Preservation lemmas for the sibling-list operations -/

/-- An in-place update that keeps a nodewise property keeps `any`. -/
theorem any_updateFirst (p : DomNode → Bool) (f : DomNode → DomNode) (q : DomNode → Bool)
    (hq : ∀ n, q (f n) = q n) (l : List DomNode) :
    (updateFirst p f l).any q = l.any q := by
  induction l with
  | nil => rfl
  | cons n ns ih =>
      cases hp : p n <;> simp [updateFirst, hp, hq, ih]

/-- Inserting a node after the first match only adds one candidate to
`any`. -/
theorem any_insertAfterFirst (p : DomNode → Bool) (x : DomNode) (q : DomNode → Bool)
    (l : List DomNode) :
    (insertAfterFirst p x l).any q = (q x || l.any q) := by
  induction l with
  | nil => simp [insertAfterFirst]
  | cons n ns ih =>
      cases hp : p n <;>
        simp [insertAfterFirst, hp, ih, Bool.or_assoc, Bool.or_comm, Bool.or_left_comm]

/-- Inserting a node before the first match only adds one candidate to
`any`. -/
theorem any_insertBeforeFirst (p : DomNode → Bool) (x : DomNode) (q : DomNode → Bool)
    (l : List DomNode) :
    (insertBeforeFirst p x l).any q = (q x || l.any q) := by
  induction l with
  | nil => simp [insertBeforeFirst]
  | cons n ns ih =>
      cases hp : p n <;>
        simp [insertBeforeFirst, hp, ih, Bool.or_assoc, Bool.or_comm, Bool.or_left_comm]

/-- Removing one node that does not carry id `j` keeps id `j` present. -/
theorem hasId_removeFirst (p : DomNode → Bool) (j : String) (l : List DomNode)
    (hp : ∀ n, p n = true → ¬nodeId n = some j) (h : hasId j l = true) :
    hasId j (removeFirst p l) = true := by
  induction l with
  | nil => simp [hasId] at h
  | cons n ns ih =>
      cases hpn : p n with
      | true =>
          rw [show removeFirst p (n :: ns) = ns from by simp [removeFirst, hpn]]
          simp only [hasId, List.any_cons, Bool.or_eq_true, beq_iff_eq] at h
          rcases h with h | h
          · exact absurd h (hp n hpn)
          · simpa [hasId] using h
      | false =>
          rw [show removeFirst p (n :: ns) = n :: removeFirst p ns from by
            simp [removeFirst, hpn]]
          simp only [hasId, List.any_cons, Bool.or_eq_true] at h ⊢
          rcases h with h | h
          · exact Or.inl h
          · exact Or.inr (ih h)

/-- `setContentFn` only rewrites style and children, never the id. -/
theorem nodeId_setContentFn (kids : List DomNode) (n : DomNode) :
    nodeId (setContentFn kids n) = nodeId n := by
  cases n <;> rfl

/-- `dropFirstChild` only rewrites children, never the id. -/
theorem nodeId_dropFirstChild (n : DomNode) :
    nodeId (dropFirstChild n) = nodeId n := by
  cases n <;> rfl

/-- The by-id placeholder reference is the id lookup predicate. -/
theorem targetDivP_false (i : String) (n : DomNode) :
    targetDivP i false n = (nodeId n == some i) := by
  simp [targetDivP]

/-- Whatever the synthesized-anchor reference matches has no id. -/
theorem targetDivP_true_noId (i : String) (n : DomNode)
    (h : targetDivP i true n = true) : nodeId n = none := by
  cases n <;> simp_all [targetDivP, nodeId]

/-! ### State-shape lemmas for the interceptor and the write dispatch -/

/-- `overrideDocWrites` never touches the body. -/
theorem overrideDocWrites_body (s : Sys) : (overrideDocWrites s).body = s.body := by
  rcases s with ⟨dw, dwl, sdw, sdwl, w, b, t⟩
  cases sdw <;> cases sdwl <;> simp [overrideDocWrites]

/-- `overrideDocWrites` never touches the trace. -/
theorem overrideDocWrites_trace (s : Sys) : (overrideDocWrites s).trace = s.trace := by
  rcases s with ⟨dw, dwl, sdw, sdwl, w, b, t⟩
  cases sdw <;> cases sdwl <;> simp [overrideDocWrites]

/-- With empty saved slots, `overrideDocWrites` saves the current entry
points and installs the stand-ins, leaving everything else alone. -/
theorem overrideDocWrites_saves (s : Sys) (h1 : s.docWrite = none) (h2 : s.docWriteln = none) :
    overrideDocWrites s =
      { s with documentWrite := .tempWrite, documentWriteln := .tempWriteln,
               docWrite := some s.documentWrite, docWriteln := some s.documentWriteln } := by
  rcases s with ⟨dw, dwl, sdw, sdwl, w, b, t⟩
  simp only at h1 h2
  subst h1; subst h2
  simp [overrideDocWrites]

/-- With both slots saved, `restoreDocWrites` puts the saved functions
back and nulls the slots, leaving everything else alone. -/
theorem restoreDocWrites_restores (s : Sys) (f g : WFn)
    (h1 : s.docWrite = some f) (h2 : s.docWriteln = some g) :
    restoreDocWrites s =
      { s with documentWrite := f, documentWriteln := g,
               docWrite := none, docWriteln := none } := by
  rcases s with ⟨dw, dwl, sdw, sdwl, w, b, t⟩
  simp only at h1 h2
  subst h1; subst h2
  simp [restoreDocWrites]

/-- The capturing stand-in only rewrites the capture buffer. -/
theorem tempDocWrite_shape (a : Option String) (s : Sys) :
    ∃ w, tempDocWrite a s = { s with writes := w } := by
  cases a with
  | none => exact ⟨s.writes, rfl⟩
  | some v =>
      simp only [tempDocWrite]
      split
      · exact ⟨_, rfl⟩
      · exact ⟨s.writes, rfl⟩

/-- The `writeln` stand-in only rewrites the capture buffer. -/
theorem tempDocWriteln_shape (a : Option String) (s : Sys) :
    ∃ w, tempDocWriteln a s = { s with writes := w } := by
  simp only [tempDocWriteln]
  exact tempDocWrite_shape _ s

/-- A native write only appends parsed markup at the end of the body. -/
theorem nativeWrite_shape (a : Option String) (s : Sys) :
    ∃ b, nativeWrite a s = { s with body := b } ∧
      ∀ j, hasId j s.body = true → hasId j b = true := by
  cases a with
  | none => exact ⟨s.body, rfl, fun _ h => h⟩
  | some v =>
      simp only [nativeWrite]
      split
      · refine ⟨_, rfl, fun j h => ?_⟩
        simp only [hasId, List.any_append, Bool.or_eq_true]
        exact Or.inl (by simpa [hasId] using h)
      · exact ⟨s.body, rfl, fun _ h => h⟩

/-- A dispatched `document.write` call only rewrites the capture buffer
or appends to the body, and keeps every present id. -/
theorem callDocumentWrite_shape (a : Option String) (s : Sys) :
    ∃ b w, callDocumentWrite a s = { s with body := b, writes := w } ∧
      ∀ j, hasId j s.body = true → hasId j b = true := by
  cases hdw : s.documentWrite with
  | tempWrite =>
      obtain ⟨w, hw⟩ := tempDocWrite_shape a s
      exact ⟨s.body, w, by simp [callDocumentWrite, hdw, hw], fun _ h => h⟩
  | origWrite =>
      obtain ⟨b, hb, hpres⟩ := nativeWrite_shape a s
      exact ⟨b, s.writes, by simp [callDocumentWrite, hdw, hb], hpres⟩
  | origWriteln =>
      refine ⟨s.body, s.writes, ?_, fun _ h => h⟩
      rw [show callDocumentWrite a s = s from by simp [callDocumentWrite, hdw], ← hdw]
  | tempWriteln =>
      refine ⟨s.body, s.writes, ?_, fun _ h => h⟩
      rw [show callDocumentWrite a s = s from by simp [callDocumentWrite, hdw], ← hdw]

/-- A dispatched `document.writeln` call likewise. -/
theorem callDocumentWriteln_shape (a : Option String) (s : Sys) :
    ∃ b w, callDocumentWriteln a s = { s with body := b, writes := w } ∧
      ∀ j, hasId j s.body = true → hasId j b = true := by
  cases hdw : s.documentWriteln with
  | tempWriteln =>
      obtain ⟨w, hw⟩ := tempDocWriteln_shape a s
      exact ⟨s.body, w, by simp [callDocumentWriteln, hdw, hw], fun _ h => h⟩
  | origWriteln =>
      obtain ⟨b, hb, hpres⟩ := nativeWrite_shape (some (a.getD "undefined" ++ "\n")) s
      exact ⟨b, s.writes, by simp [callDocumentWriteln, hdw, hb], hpres⟩
  | origWrite =>
      refine ⟨s.body, s.writes, ?_, fun _ h => h⟩
      rw [show callDocumentWriteln a s = s from by simp [callDocumentWriteln, hdw], ← hdw]
  | tempWrite =>
      refine ⟨s.body, s.writes, ?_, fun _ h => h⟩
      rw [show callDocumentWriteln a s = s from by simp [callDocumentWriteln, hdw], ← hdw]

/-- The writes a fetched script makes only touch the capture buffer and
the body, and keep every present id. -/
theorem applyScriptWrites_shape (ws : List ScriptWrite) (s : Sys) :
    ∃ b w, applyScriptWrites ws s = { s with body := b, writes := w } ∧
      ∀ j, hasId j s.body = true → hasId j b = true := by
  induction ws generalizing s with
  | nil => exact ⟨s.body, s.writes, rfl, fun _ h => h⟩
  | cons sw rest ih =>
      cases sw with
      | w a =>
          obtain ⟨b1, w1, h1, p1⟩ := callDocumentWrite_shape a s
          obtain ⟨b2, w2, h2, p2⟩ := ih (callDocumentWrite a s)
          refine ⟨b2, w2, ?_, fun j h => ?_⟩
          · rw [show applyScriptWrites (ScriptWrite.w a :: rest) s
                  = applyScriptWrites rest (callDocumentWrite a s) from rfl, h2, h1]
          · exact p2 j (by rw [h1]; exact p1 j h)
      | wln a =>
          obtain ⟨b1, w1, h1, p1⟩ := callDocumentWriteln_shape a s
          obtain ⟨b2, w2, h2, p2⟩ := ih (callDocumentWriteln a s)
          refine ⟨b2, w2, ?_, fun j h => ?_⟩
          · rw [show applyScriptWrites (ScriptWrite.wln a :: rest) s
                  = applyScriptWrites rest (callDocumentWriteln a s) from rfl, h2, h1]
          · exact p2 j (by rw [h1]; exact p1 j h)

/-- The `complete` callback invocation only logs (and possibly throws). -/
theorem callCompleteCb_shape (o : Opts) (s : Sys) :
    ∃ δ fl, callCompleteCb o s = ({ s with trace := s.trace ++ δ }, fl) ∧
      tailTagged o.id δ := by
  cases hc : o.complete with
  | none => exact ⟨[], false, by simp [callCompleteCb, hc], by simp [tailTagged]⟩
  | some b =>
      cases b with
      | throws =>
          exact ⟨[{ id := o.id, k := .completeCalled }], true,
            by simp [callCompleteCb, hc, logEv], by simp [tailTagged]⟩
      | retFalse =>
          exact ⟨[{ id := o.id, k := .completeCalled }], false,
            by simp [callCompleteCb, hc, logEv], by simp [tailTagged]⟩
      | retOther =>
          exact ⟨[{ id := o.id, k := .completeCalled }], false,
            by simp [callCompleteCb, hc, logEv], by simp [tailTagged]⟩

/-- The move loop only logs `nodeMoved` events and rearranges the body,
keeping every present id (dropping a child keeps the container id, and
re-inserting the child is an insertion). -/
theorem moveLoop_shape (i : String) (u : Bool) (n : Nat) (s : Sys) :
    ∃ δ b, moveLoop i u n s = { s with trace := s.trace ++ δ, body := b } ∧
      tailTagged i δ ∧ ∀ j, hasId j s.body = true → hasId j b = true := by
  induction n generalizing s with
  | zero =>
      exact ⟨[], s.body, by simp [moveLoop], by simp [tailTagged], fun _ h => h⟩
  | succ m ih =>
      cases hd : divChildren i u s.body with
      | nil =>
          refine ⟨[], s.body, ?_, by simp [tailTagged], fun _ h => h⟩
          simp [moveLoop, hd]
      | cons c cs =>
          obtain ⟨δ', b', heq, htag, hpres⟩ := ih
            { s with
                body := insertAfterFirst (scriptRefP i) c
                    (updateFirst (targetDivP i u) dropFirstChild s.body),
                trace := s.trace ++ [{ id := i, k := EKind.nodeMoved }] }
          refine ⟨{ id := i, k := EKind.nodeMoved } :: δ', b', ?_, ?_, ?_⟩
          · rw [show moveLoop i u (m + 1) s = moveLoop i u m
                  { s with
                      body := insertAfterFirst (scriptRefP i) c
                          (updateFirst (targetDivP i u) dropFirstChild s.body),
                      trace := s.trace ++ [{ id := i, k := EKind.nodeMoved }] } from by
                simp [moveLoop, hd, logEv], heq]
            simp [List.append_assoc]
          · intro e he
            rcases List.mem_cons.mp he with he | he
            · subst he; exact ⟨rfl, by simp, by simp⟩
            · exact htag e he
          · intro j h
            refine hpres j ?_
            have h1 : hasId j (updateFirst (targetDivP i u) dropFirstChild s.body) = true := by
              rw [show hasId j (updateFirst (targetDivP i u) dropFirstChild s.body)
                    = hasId j s.body from
                any_updateFirst _ _ _ (fun n => by rw [nodeId_dropFirstChild]) s.body]
              exact h
            show hasId j (insertAfterFirst (scriptRefP i) c
              (updateFirst (targetDivP i u) dropFirstChild s.body)) = true
            rw [show hasId j (insertAfterFirst (scriptRefP i) c
                  (updateFirst (targetDivP i u) dropFirstChild s.body))
                = ((nodeId c == some j) ||
                    hasId j (updateFirst (targetDivP i u) dropFirstChild s.body)) from
              any_insertAfterFirst _ _ _ _]
            simp [h1]

/-- The reinsertion tail of the handler only logs tagged events, moves
body nodes around (keeping every other id present) and possibly throws in
the `complete` callback. -/
theorem handleRest_shape (o : Opts) (s : Sys) :
    ∃ δ b fl, handleRest o s = ({ s with trace := s.trace ++ δ, body := b }, fl) ∧
      tailTagged o.id δ ∧
      ∀ j, j ≠ o.id → hasId j s.body = true → hasId j b = true := by
  have hremove : ∀ (u : Bool) (j : String), j ≠ o.id →
      ∀ l, hasId j l = true → hasId j (removeFirst (targetDivP o.id u) l) = true := by
    intro u j hj l hl
    refine hasId_removeFirst _ j l (fun n hn => ?_) hl
    cases u with
    | true => rw [targetDivP_true_noId o.id n hn]; simp
    | false =>
        rw [targetDivP_false] at hn
        rw [beq_iff_eq.mp hn]
        simp only [Option.some.injEq]
        exact fun he => hj he.symm
  have hupdate : ∀ (u : Bool) (kids : List DomNode) (j : String) (l : List DomNode),
      hasId j l = true →
      hasId j (updateFirst (targetDivP o.id u) (setContentFn kids) l) = true := by
    intro u kids j l hl
    rw [show hasId j (updateFirst (targetDivP o.id u) (setContentFn kids) l) = hasId j l from
      any_updateFirst _ _ _ (fun n => by rw [nodeId_setContentFn]) l]
    exact hl
  obtain ⟨dw, dwl, sdw, sdwl, w, bd, tr⟩ := s
  cases w with
  | none =>
      cases hfound : getById bd o.id with
      | none =>
          obtain ⟨δc, fl, hc, htagc⟩ := callCompleteCb_shape o
            ⟨dw, dwl, sdw, sdwl, none, bd,
              tr ++ [{ id := o.id, k := EKind.placeholderLookup }]⟩
          refine ⟨{ id := o.id, k := EKind.placeholderLookup } :: δc, bd, fl, ?_, ?_,
            fun j _ h => h⟩
          · rw [show handleRest o ⟨dw, dwl, sdw, sdwl, none, bd, tr⟩
                  = callCompleteCb o ⟨dw, dwl, sdw, sdwl, none, bd,
                      tr ++ [{ id := o.id, k := EKind.placeholderLookup }]⟩ from by
                simp [handleRest, hfound, logEv], hc]
            simp [List.append_assoc]
          · intro e he
            rcases List.mem_cons.mp he with he | he
            · subst he; exact ⟨rfl, by simp, by simp⟩
            · exact htagc e he
      | some x =>
          obtain ⟨δc, fl, hc, htagc⟩ := callCompleteCb_shape o
            ⟨dw, dwl, sdw, sdwl, none, removeFirst (targetDivP o.id false) bd,
              (tr ++ [{ id := o.id, k := EKind.placeholderLookup }]) ++
                [{ id := o.id, k := EKind.placeholderRemoved }]⟩
          refine ⟨{ id := o.id, k := EKind.placeholderLookup } ::
              { id := o.id, k := EKind.placeholderRemoved } :: δc,
            removeFirst (targetDivP o.id false) bd, fl, ?_, ?_,
            fun j hj h => hremove false j hj bd h⟩
          · rw [show handleRest o ⟨dw, dwl, sdw, sdwl, none, bd, tr⟩
                  = callCompleteCb o ⟨dw, dwl, sdw, sdwl, none,
                      removeFirst (targetDivP o.id false) bd,
                      (tr ++ [{ id := o.id, k := EKind.placeholderLookup }]) ++
                        [{ id := o.id, k := EKind.placeholderRemoved }]⟩ from by
                simp [handleRest, hfound, logEv], hc]
            simp [List.append_assoc]
          · intro e he
            rcases List.mem_cons.mp he with he | he
            · subst he; exact ⟨rfl, by simp, by simp⟩
            rcases List.mem_cons.mp he with he | he
            · subst he; exact ⟨rfl, by simp, by simp⟩
            · exact htagc e he
  | some ws =>
      cases hfound : getById bd o.id with
      | some x =>
          obtain ⟨δm, bm, heqm, htagm, hpresm⟩ := moveLoop_shape o.id false
            (parseHTML (String.join ws)).length
            ⟨dw, dwl, sdw, sdwl, some ws,
              updateFirst (targetDivP o.id false)
                (setContentFn (parseHTML (String.join ws))) bd,
              tr ++ [{ id := o.id, k := EKind.placeholderLookup }]⟩
          obtain ⟨δc, fl, hc, htagc⟩ := callCompleteCb_shape o
            ⟨dw, dwl, sdw, sdwl, some ws, removeFirst (targetDivP o.id false) bm,
              ((tr ++ [{ id := o.id, k := EKind.placeholderLookup }]) ++ δm) ++
                [{ id := o.id, k := EKind.placeholderRemoved }]⟩
          refine ⟨{ id := o.id, k := EKind.placeholderLookup } ::
              (δm ++ { id := o.id, k := EKind.placeholderRemoved } :: δc),
            removeFirst (targetDivP o.id false) bm, fl, ?_, ?_, ?_⟩
          · rw [show handleRest o ⟨dw, dwl, sdw, sdwl, some ws, bd, tr⟩
                  = callCompleteCb o ⟨dw, dwl, sdw, sdwl, some ws,
                      removeFirst (targetDivP o.id false) bm,
                      ((tr ++ [{ id := o.id, k := EKind.placeholderLookup }]) ++ δm) ++
                        [{ id := o.id, k := EKind.placeholderRemoved }]⟩ from by
                simp [handleRest, hfound, logEv, heqm], hc]
            simp [List.append_assoc]
          · intro e he
            rcases List.mem_cons.mp he with he | he
            · subst he; exact ⟨rfl, by simp, by simp⟩
            rcases List.mem_append.mp he with he | he
            · exact htagm e he
            rcases List.mem_cons.mp he with he | he
            · subst he; exact ⟨rfl, by simp, by simp⟩
            · exact htagc e he
          · intro j hj h
            exact hremove false j hj bm (hpresm j (hupdate false _ j bd h))
      | none =>
          obtain ⟨δm, bm, heqm, htagm, hpresm⟩ := moveLoop_shape o.id true
            (parseHTML (String.join ws)).length
            ⟨dw, dwl, sdw, sdwl, some ws,
              updateFirst (targetDivP o.id true)
                (setContentFn (parseHTML (String.join ws)))
                (insertAfterFirst (scriptRefP o.id) (.synthDiv o.id false []) bd),
              tr ++ [{ id := o.id, k := EKind.placeholderLookup }]⟩
          obtain ⟨δc, fl, hc, htagc⟩ := callCompleteCb_shape o
            ⟨dw, dwl, sdw, sdwl, some ws, removeFirst (targetDivP o.id true) bm,
              ((tr ++ [{ id := o.id, k := EKind.placeholderLookup }]) ++ δm) ++
                [{ id := o.id, k := EKind.placeholderRemoved }]⟩
          refine ⟨{ id := o.id, k := EKind.placeholderLookup } ::
              (δm ++ { id := o.id, k := EKind.placeholderRemoved } :: δc),
            removeFirst (targetDivP o.id true) bm, fl, ?_, ?_, ?_⟩
          · rw [show handleRest o ⟨dw, dwl, sdw, sdwl, some ws, bd, tr⟩
                  = callCompleteCb o ⟨dw, dwl, sdw, sdwl, some ws,
                      removeFirst (targetDivP o.id true) bm,
                      ((tr ++ [{ id := o.id, k := EKind.placeholderLookup }]) ++ δm) ++
                        [{ id := o.id, k := EKind.placeholderRemoved }]⟩ from by
                simp [handleRest, hfound, logEv, heqm], hc]
            simp [List.append_assoc]
          · intro e he
            rcases List.mem_cons.mp he with he | he
            · subst he; exact ⟨rfl, by simp, by simp⟩
            rcases List.mem_append.mp he with he | he
            · exact htagm e he
            rcases List.mem_cons.mp he with he | he
            · subst he; exact ⟨rfl, by simp, by simp⟩
            · exact htagc e he
          · intro j hj h
            refine hremove true j hj bm (hpresm j (hupdate true _ j _ ?_))
            rw [show hasId j (insertAfterFirst (scriptRefP o.id)
                  (DomNode.synthDiv o.id false []) bd)
                = ((nodeId (DomNode.synthDiv o.id false []) == some j) || hasId j bd) from
              any_insertAfterFirst _ _ _ _]
            simp [h, nodeId]

/-- The full handler (the `loaded` callback, then — unless it vetoed or
threw — the reinsertion tail). -/
theorem handleScriptLoaded_shape (o : Opts) (s : Sys) :
    ∃ δ b fl, handleScriptLoaded o s = ({ s with trace := s.trace ++ δ, body := b }, fl) ∧
      tailTagged o.id δ ∧
      ∀ j, j ≠ o.id → hasId j s.body = true → hasId j b = true := by
  cases hl : o.loaded with
  | none =>
      obtain ⟨δ, b, fl, heq, htag, hpres⟩ := handleRest_shape o s
      exact ⟨δ, b, fl,
        by rw [show handleScriptLoaded o s = handleRest o s from by
          simp [handleScriptLoaded, hl], heq], htag, hpres⟩
  | some cb =>
      cases cb with
      | retFalse =>
          refine ⟨[{ id := o.id, k := EKind.loadedCalled }], s.body, false, ?_, ?_,
            fun j _ h => h⟩
          · simp [handleScriptLoaded, hl, logEv]
          · intro e he
            rcases List.mem_cons.mp he with he | he
            · subst he; exact ⟨rfl, by simp, by simp⟩
            · simp at he
      | throws =>
          refine ⟨[{ id := o.id, k := EKind.loadedCalled }], s.body, true, ?_, ?_,
            fun j _ h => h⟩
          · simp [handleScriptLoaded, hl, logEv]
          · intro e he
            rcases List.mem_cons.mp he with he | he
            · subst he; exact ⟨rfl, by simp, by simp⟩
            · simp at he
      | retOther =>
          obtain ⟨δ, b, fl, heq, htag, hpres⟩ := handleRest_shape o
            (logEv { id := o.id, k := EKind.loadedCalled } s)
          refine ⟨{ id := o.id, k := EKind.loadedCalled } :: δ, b, fl, ?_, ?_, ?_⟩
          · rw [show handleScriptLoaded o s
                  = handleRest o (logEv { id := o.id, k := EKind.loadedCalled } s) from by
                simp [handleScriptLoaded, hl], heq]
            simp [logEv, List.append_assoc]
          · intro e he
            rcases List.mem_cons.mp he with he | he
            · subst he; exact ⟨rfl, by simp, by simp⟩
            · exact htag e he
          · intro j hj h
            exact hpres j hj h

/-- A successful placement step: one `scriptAppended` event, the new
element in the body, every present id kept, and no exception. -/
theorem appendScriptRun_shape (o : Opts) (s : Sys) (hok : appendOk o s.body) :
    ∃ b, appendScriptRun o s =
      ({ s with trace := s.trace ++ [{ id := o.id, k := EKind.scriptAppended }], body := b },
        false) ∧
      ∀ j, hasId j s.body = true → hasId j b = true := by
  cases ha : o.append with
  | bodyAppend =>
      refine ⟨s.body ++ [scriptNodeOf o], ?_, fun j h => ?_⟩
      · simp [appendScriptRun, ha, logEv]
      · simp only [hasId, List.any_append, Bool.or_eq_true]
        exact Or.inl (by simpa [hasId] using h)
  | beforePlaceholder =>
      have hhas : hasId o.id s.body = true := by
        rcases hok with hok | hok
        · rw [ha] at hok; simp at hok
        · exact hok
      refine ⟨insertBeforeFirst (fun n => nodeId n == some o.id) (scriptNodeOf o) s.body,
        ?_, fun j h => ?_⟩
      · simp [appendScriptRun, ha, hhas, logEv]
      · rw [show hasId j (insertBeforeFirst (fun n => nodeId n == some o.id)
              (scriptNodeOf o) s.body)
            = ((nodeId (scriptNodeOf o) == some j) || hasId j s.body) from
          any_insertBeforeFirst _ _ _ _]
        simp [h]

/-- A tagged cycle tail contains no signal and no invocation events. -/
theorem tailTagged_counts (i' : String) (δ : List Event) (ht : tailTagged i' δ) (i : String) :
    δ.count (sigEv i) = 0 ∧ δ.count (invEv i) = 0 := by
  constructor
  · rw [List.count_eq_zero]
    intro hmem
    exact absurd rfl (ht _ hmem).2.1
  · rw [List.count_eq_zero]
    intro hmem
    exact absurd rfl (ht _ hmem).2.2

/-- One deferred cycle up to (excluding) its completion signal: the entry
points are the stand-ins with the originals saved, the trace grew by the
invocation event and a tagged tail, and every other id stays present. -/
theorem cycleOut_spec (o : Opts) (s : Sys) (h1 : s.docWrite = none) (h2 : s.docWriteln = none)
    (hok : appendOk o s.body) :
    ∃ δ b w2 fl, cycleOut o s =
      ({ s with documentWrite := WFn.tempWrite, documentWriteln := WFn.tempWriteln,
                docWrite := some s.documentWrite, docWriteln := some s.documentWriteln,
                writes := w2, body := b, trace := s.trace ++ invEv o.id :: δ }, fl) ∧
      tailTagged o.id δ ∧
      ∀ j, j ≠ o.id → hasId j s.body = true → hasId j b = true := by
  obtain ⟨dw, dwl, sdw, sdwl, w, bd, tr⟩ := s
  simp only at h1 h2 hok
  subst h1; subst h2
  obtain ⟨b1, ha, hp1⟩ := appendScriptRun_shape o
    ⟨WFn.tempWrite, WFn.tempWriteln, some dw, some dwl, w, bd, tr ++ [invEv o.id]⟩ hok
  obtain ⟨b2, w2, hw, hp2⟩ := applyScriptWrites_shape o.scriptWrites
    ⟨WFn.tempWrite, WFn.tempWriteln, some dw, some dwl, w, b1,
      (tr ++ [invEv o.id]) ++ [{ id := o.id, k := EKind.scriptAppended }]⟩
  have hw' : applyScriptWrites o.scriptWrites
      ⟨WFn.tempWrite, WFn.tempWriteln, some dw, some dwl, w, b1,
        (tr ++ [invEv o.id]) ++ [{ id := o.id, k := EKind.scriptAppended }]⟩
      = ⟨WFn.tempWrite, WFn.tempWriteln, some dw, some dwl, w2, b2,
        (tr ++ [invEv o.id]) ++ [{ id := o.id, k := EKind.scriptAppended }]⟩ := by
    rw [hw]
  obtain ⟨δ3, b3, fl, hh, htag, hp3⟩ := handleScriptLoaded_shape o
    ⟨WFn.tempWrite, WFn.tempWriteln, some dw, some dwl, w2, b2,
      (tr ++ [invEv o.id]) ++ [{ id := o.id, k := EKind.scriptAppended }]⟩
  refine ⟨{ id := o.id, k := EKind.scriptAppended } :: δ3, b3, w2, fl, ?_, ?_, ?_⟩
  · rw [show cycleOut o ⟨dw, dwl, none, none, w, bd, tr⟩
          = handleScriptLoaded o (applyScriptWrites o.scriptWrites
              ⟨WFn.tempWrite, WFn.tempWriteln, some dw, some dwl, w, b1,
                (tr ++ [invEv o.id]) ++ [{ id := o.id, k := EKind.scriptAppended }]⟩) from by
        simp [cycleOut, overrideDocWrites, logEv, ha], hw', hh]
    simp [List.append_assoc]
  · intro e he
    rcases List.mem_cons.mp he with he | he
    · subst he; exact ⟨rfl, by simp, by simp⟩
    · exact htag e he
  · intro j hj h
    exact hp3 j hj (hp2 j (hp1 j h))

/-- The state the scheduler hands to the next request: everything as
before the cycle except the body changes (other ids kept), the capture
buffer cleared, and the trace grown by the invocation event, the tagged
tail and the completion signal. -/
theorem afterCycle_spec (o : Opts) (s : Sys) (h1 : s.docWrite = none) (h2 : s.docWriteln = none)
    (hok : appendOk o s.body) :
    ∃ δ b, afterCycle o s =
      { s with writes := none, body := b,
               trace := s.trace ++ invEv o.id :: (δ ++ [sigEv o.id]) } ∧
      tailTagged o.id δ ∧
      ∀ j, j ≠ o.id → hasId j s.body = true → hasId j b = true := by
  obtain ⟨δ, b, w2, fl, heq, htag, hpres⟩ := cycleOut_spec o s h1 h2 hok
  refine ⟨δ, b, ?_, htag, hpres⟩
  show clearWrites (restoreDocWrites (logEv (sigEv o.id) (cycleOut o s).1)) = _
  rw [heq]
  simp only [logEv]
  rw [restoreDocWrites_restores _ s.documentWrite s.documentWriteln rfl rfl]
  simp [clearWrites, List.append_assoc, h1, h2]

/-- The scheduler decomposition: draining `o :: rest` runs the cycle of
`o`, fires the completion signal, restores and clears, and then drains
`rest` from exactly that state. -/
theorem drainFrom_cons (o : Opts) (rest : List Opts) (s : Sys) (hd : o.defer = true)
    (hok : appendOk o s.body) :
    drainFrom (o :: rest) s =
      ((drainFrom rest (afterCycle o s)).1,
       (cycleOut o s).2 || (drainFrom rest (afterCycle o s)).2) := by
  have hokx : appendOk o (logEv (invEv o.id) (overrideDocWrites s)).body := by
    rcases hok with h | h
    · exact Or.inl h
    · refine Or.inr ?_
      rw [show (logEv (invEv o.id) (overrideDocWrites s)).body
            = (overrideDocWrites s).body from rfl, overrideDocWrites_body]
      exact h
  obtain ⟨b1, ha, _⟩ := appendScriptRun_shape o (logEv (invEv o.id) (overrideDocWrites s)) hokx
  simp only [drainFrom, loadScriptRun, hd, if_true, tryFinally, fireEnd, cycleOut,
    afterCycle, ha, Bool.false_eq_true, ite_false]

/-- The full drain trace of a worklist of deferred requests with distinct
ids and reachable placement targets, from a state with empty saved slots:
the appended segment is tagged with the worklist ids, contains exactly
one completion signal and one invocation per request, and for any two
worklist positions `j < k` the completion signal of request `j` precedes
both the completion signal and the executor invocation of request `k`. -/
theorem drainTraceSpec (L : List Opts) (s : Sys)
    (hdef : ∀ o ∈ L, o.defer = true)
    (hnd : (ids L).Nodup)
    (h1 : s.docWrite = none) (h2 : s.docWriteln = none)
    (hok : ∀ o ∈ L, appendOk o s.body) :
    ∃ δ, (drainFrom L s).1.trace = s.trace ++ δ ∧
      (∀ e ∈ δ, e.id ∈ ids L) ∧
      (∀ i, δ.count (sigEv i) = (ids L).count i) ∧
      (∀ i, δ.count (invEv i) = (ids L).count i) ∧
      (∀ (j k : Nat) (hj : j < L.length) (hk : k < L.length), j < k →
        ([sigEv ((L.get ⟨j, hj⟩).id), sigEv ((L.get ⟨k, hk⟩).id)].Sublist δ ∧
         [sigEv ((L.get ⟨j, hj⟩).id), invEv ((L.get ⟨k, hk⟩).id)].Sublist δ)) := by
  induction L generalizing s with
  | nil =>
      refine ⟨[], by simp [drainFrom, pureRun], by simp, by simp [ids],
        by simp [ids], fun j k hj _ _ => absurd hj (by simp)⟩
  | cons o rest ih =>
      have hd : o.defer = true := hdef o (List.mem_cons_self o rest)
      have hok0 : appendOk o s.body := hok o (List.mem_cons_self o rest)
      rw [show ids (o :: rest) = o.id :: ids rest from rfl] at hnd
      obtain ⟨hnotin, hnd'⟩ := List.nodup_cons.mp hnd
      obtain ⟨δ1, b1, hAC, htag1, hpres1⟩ := afterCycle_spec o s h1 h2 hok0
      have hstep := drainFrom_cons o rest s hd hok0
      have hdef' : ∀ o' ∈ rest, o'.defer = true :=
        fun o' ho' => hdef o' (List.mem_cons_of_mem o ho')
      have h1' : (afterCycle o s).docWrite = none := by rw [hAC]; exact h1
      have h2' : (afterCycle o s).docWriteln = none := by rw [hAC]; exact h2
      have hne : ∀ o' ∈ rest, o'.id ≠ o.id := by
        intro o' ho' he
        exact hnotin (he ▸ List.mem_map_of_mem (·.id) ho')
      have hok' : ∀ o' ∈ rest, appendOk o' (afterCycle o s).body := by
        intro o' ho'
        rcases hok o' (List.mem_cons_of_mem o ho') with hb | hh
        · exact Or.inl hb
        · refine Or.inr ?_
          rw [hAC]
          exact hpres1 o'.id (hne o' ho') hh
      obtain ⟨δr, htr, hmem, hsig, hinv, hord⟩ := ih (afterCycle o s) hdef' hnd' h1' h2' hok'
      have hsigmem : ∀ o' ∈ rest, sigEv o'.id ∈ δr := by
        intro o' ho'
        rw [← List.count_pos_iff]
        rw [hsig o'.id]
        rw [List.count_pos_iff]
        exact List.mem_map_of_mem (·.id) ho'
      have hinvmem : ∀ o' ∈ rest, invEv o'.id ∈ δr := by
        intro o' ho'
        rw [← List.count_pos_iff]
        rw [hinv o'.id]
        rw [List.count_pos_iff]
        exact List.mem_map_of_mem (·.id) ho'
      refine ⟨invEv o.id :: (δ1 ++ sigEv o.id :: δr), ?_, ?_, ?_, ?_, ?_⟩
      · rw [hstep]
        show (drainFrom rest (afterCycle o s)).1.trace = _
        rw [htr, hAC]
        simp [List.append_assoc]
      · intro e he
        rcases List.mem_cons.mp he with he | he
        · subst he
          exact List.mem_map_of_mem (·.id) (List.mem_cons_self o rest)
        rcases List.mem_append.mp he with he | he
        · rw [(htag1 e he).1]
          exact List.mem_map_of_mem (·.id) (List.mem_cons_self o rest)
        rcases List.mem_cons.mp he with he | he
        · subst he
          exact List.mem_map_of_mem (·.id) (List.mem_cons_self o rest)
        · rw [show ids (o :: rest) = o.id :: ids rest from rfl]
          exact List.mem_cons_of_mem o.id (hmem e he)
      · intro i
        have hz := (tailTagged_counts o.id δ1 htag1 i).1
        rw [show ids (o :: rest) = o.id :: ids rest from rfl]
        simp only [List.count_cons, List.count_append, hz, hsig i]
        have hne1 : (invEv o.id == sigEv i) = false := by
          simp [invEv, sigEv, Event.mk.injEq]
        have hne2 : (sigEv o.id == sigEv i) = (o.id == i) := by
          simp only [sigEv, Event.mk.injEq, beq_iff_eq]
          by_cases h : o.id = i <;> simp [h]
        rw [hne1, hne2]
        simp [Nat.add_comm, Nat.add_assoc]
      · intro i
        have hz := (tailTagged_counts o.id δ1 htag1 i).2
        rw [show ids (o :: rest) = o.id :: ids rest from rfl]
        simp only [List.count_cons, List.count_append, hz, hinv i]
        have hne1 : (sigEv o.id == invEv i) = false := by
          simp [invEv, sigEv, Event.mk.injEq]
        have hne2 : (invEv o.id == invEv i) = (o.id == i) := by
          simp only [invEv, Event.mk.injEq, beq_iff_eq]
          by_cases h : o.id = i <;> simp [h]
        rw [hne1, hne2]
        simp [Nat.add_comm, Nat.add_assoc]
      · intro j k hj hk hjk
        cases j with
        | zero =>
            cases k with
            | zero => exact absurd hjk (by simp)
            | succ kk =>
                have hkk : kk < rest.length := by
                  simpa using hk
                have hget : ((o :: rest).get ⟨kk + 1, hk⟩) = rest.get ⟨kk, hkk⟩ := rfl
                have hmem1 : rest.get ⟨kk, hkk⟩ ∈ rest := List.get_mem rest kk hkk
                constructor
                · refine List.Sublist.cons _ ?_
                  refine List.Sublist.trans ?_ (List.sublist_append_right δ1 _)
                  rw [hget]
                  exact List.cons_sublist_cons.mpr
                    (List.singleton_sublist.mpr (hsigmem _ hmem1))
                · refine List.Sublist.cons _ ?_
                  refine List.Sublist.trans ?_ (List.sublist_append_right δ1 _)
                  rw [hget]
                  exact List.cons_sublist_cons.mpr
                    (List.singleton_sublist.mpr (hinvmem _ hmem1))
        | succ jj =>
            cases k with
            | zero => exact absurd hjk (by simp)
            | succ kk =>
                have hjj : jj < rest.length := by simpa using hj
                have hkk : kk < rest.length := by simpa using hk
                have hjk' : jj < kk := by omega
                obtain ⟨hs1, hs2⟩ := hord jj kk hjj hkk hjk'
                have hembed : δr.Sublist (invEv o.id :: (δ1 ++ sigEv o.id :: δr)) := by
                  refine List.Sublist.cons _ ?_
                  refine List.Sublist.trans ?_ (List.sublist_append_right δ1 _)
                  exact List.Sublist.cons _ (List.Sublist.refl δr)
                exact ⟨List.Sublist.trans (by simpa using hs1) hembed,
                       List.Sublist.trans (by simpa using hs2) hembed⟩

/-- The try-block of the synchronous path only logs callback events
(no completion signal among them) and possibly throws. -/
theorem syncCbs_shape (o : Opts) (s : Sys) :
    ∃ δ fl, syncCbs o s = ({ s with trace := s.trace ++ δ }, fl) ∧
      ∀ e ∈ δ, e.k ≠ EKind.signal := by
  cases hl : o.loaded with
  | none =>
      obtain ⟨δc, fl, hc, htagc⟩ := callCompleteCb_shape o s
      refine ⟨δc, fl, ?_, fun e he => (htagc e he).2.1⟩
      rw [show syncCbs o s = callCompleteCb o s from by
        simp [syncCbs, callLoadedNoRet, hl], hc]
  | some cb =>
      cases cb with
      | throws =>
          refine ⟨[{ id := o.id, k := EKind.loadedCalled }], true, ?_, ?_⟩
          · simp [syncCbs, callLoadedNoRet, hl, logEv]
          · intro e he
            rcases List.mem_cons.mp he with he | he
            · subst he; simp
            · simp at he
      | retFalse =>
          obtain ⟨δc, fl, hc, htagc⟩ := callCompleteCb_shape o
            { s with trace := s.trace ++ [{ id := o.id, k := EKind.loadedCalled }] }
          refine ⟨{ id := o.id, k := EKind.loadedCalled } :: δc, fl, ?_, ?_⟩
          · rw [show syncCbs o s = callCompleteCb o
                  { s with trace := s.trace ++ [{ id := o.id, k := EKind.loadedCalled }] } from by
                simp [syncCbs, callLoadedNoRet, hl, logEv], hc]
            simp [List.append_assoc]
          · intro e he
            rcases List.mem_cons.mp he with he | he
            · subst he; simp
            · exact (htagc e he).2.1
      | retOther =>
          obtain ⟨δc, fl, hc, htagc⟩ := callCompleteCb_shape o
            { s with trace := s.trace ++ [{ id := o.id, k := EKind.loadedCalled }] }
          refine ⟨{ id := o.id, k := EKind.loadedCalled } :: δc, fl, ?_, ?_⟩
          · rw [show syncCbs o s = callCompleteCb o
                  { s with trace := s.trace ++ [{ id := o.id, k := EKind.loadedCalled }] } from by
                simp [syncCbs, callLoadedNoRet, hl, logEv], hc]
            simp [List.append_assoc]
          · intro e he
            rcases List.mem_cons.mp he with he | he
            · subst he; simp
            · exact (htagc e he).2.1

/-- C4: in synchronous mode, for every request whose element is present —
whatever its `loaded` and `complete` callbacks do, including throwing —
the element id is cleared and the completion signal fires exactly once,
through the cleanup that runs on every exit path. -/
theorem c4_sync_cleanup (o : Opts) (s : Sys) (hd : o.defer = false)
    (hfound : (getById s.body o.id).isSome = true) :
    ∃ δ, (loadScriptRun o pureRun s).1.trace = s.trace ++ δ ∧
      δ.count (sigEv o.id) = 1 ∧
      (loadScriptRun o pureRun s).1.body =
        updateFirst (fun n => nodeId n == some o.id) clearIdFn s.body := by
  obtain ⟨x, hx⟩ := Option.isSome_iff_exists.mp hfound
  obtain ⟨δc, fl, hsc, hnsig⟩ := syncCbs_shape o
    { s with trace := s.trace ++ [invEv o.id] }
  have hmain : loadScriptRun o pureRun s =
      ({ s with trace := (((s.trace ++ [invEv o.id]) ++ δc) ++ [sigEv o.id]),
                body := updateFirst (fun n => nodeId n == some o.id) clearIdFn s.body },
       fl || false) := by
    simp only [loadScriptRun, hd, Bool.false_eq_true, ite_false, logEv, hx, hsc,
      fireEnd, pureRun]
  refine ⟨invEv o.id :: (δc ++ [sigEv o.id]), ?_, ?_, ?_⟩
  · rw [hmain]
    simp [List.append_assoc]
  · have h0 : δc.count { id := o.id, k := EKind.signal } = 0 :=
      List.count_eq_zero.mpr (fun hm => (hnsig _ hm) rfl)
    simp [List.count_cons, List.count_append, h0, invEv, sigEv, Event.mk.injEq]
  · rw [hmain]

/-- C4 witness: a synchronous request with a throwing `loaded` callback,
whose inline element is present in the body. -/
theorem c4_sync_cleanup_witness :
    ∃ δ, (loadScriptRun syncOpts pureRun
        (initSys [DomNode.scriptElem "s" (some "s") "s.js"])).1.trace
        = (initSys [DomNode.scriptElem "s" (some "s") "s.js"]).trace ++ δ ∧
      δ.count (sigEv syncOpts.id) = 1 ∧
      (loadScriptRun syncOpts pureRun
        (initSys [DomNode.scriptElem "s" (some "s") "s.js"])).1.body =
        updateFirst (fun n => nodeId n == some syncOpts.id) clearIdFn
          (initSys [DomNode.scriptElem "s" (some "s") "s.js"]).body :=
  c4_sync_cleanup syncOpts (initSys [DomNode.scriptElem "s" (some "s") "s.js"]) rfl
    (by decide)

/-- C3: after any single deferred load cycle completes, the document
write entry points hold their pre-interception originals again, the saved
slots and the capture buffer are cleared — and the drain hands exactly
that restored state to the remaining worklist, so the next load starts
clean. -/
theorem c3_restoration (o : Opts) (rest : List Opts) (s : Sys) (hd : o.defer = true)
    (h1 : s.docWrite = none) (h2 : s.docWriteln = none) (hok : appendOk o s.body) :
    (afterCycle o s).documentWrite = s.documentWrite ∧
    (afterCycle o s).documentWriteln = s.documentWriteln ∧
    (afterCycle o s).docWrite = none ∧
    (afterCycle o s).docWriteln = none ∧
    (afterCycle o s).writes = none ∧
    drainFrom (o :: rest) s =
      ((drainFrom rest (afterCycle o s)).1,
       (cycleOut o s).2 || (drainFrom rest (afterCycle o s)).2) := by
  obtain ⟨δ, b, hAC, _, _⟩ := afterCycle_spec o s h1 h2 hok
  refine ⟨?_, ?_, ?_, ?_, ?_, drainFrom_cons o rest s hd hok⟩ <;> rw [hAC]
  · exact h1
  · exact h2

/-- C3 witness: one deferred request drained from the ready-transition
state. -/
theorem c3_restoration_witness :
    (afterCycle (sampleOpts "a") (initSys [])).documentWrite = (initSys []).documentWrite ∧
    (afterCycle (sampleOpts "a") (initSys [])).documentWriteln = (initSys []).documentWriteln ∧
    (afterCycle (sampleOpts "a") (initSys [])).docWrite = none ∧
    (afterCycle (sampleOpts "a") (initSys [])).docWriteln = none ∧
    (afterCycle (sampleOpts "a") (initSys [])).writes = none ∧
    drainFrom [sampleOpts "a"] (initSys []) =
      ((drainFrom [] (afterCycle (sampleOpts "a") (initSys []))).1,
       (cycleOut (sampleOpts "a") (initSys [])).2 ||
         (drainFrom [] (afterCycle (sampleOpts "a") (initSys []))).2) :=
  c3_restoration (sampleOpts "a") [] (initSys []) rfl rfl rfl (Or.inl rfl)

/-- C1 (counterexample): for a deferred load whose `loaded` callback
returns `false` — with a `complete` callback supplied and a fragment
captured — the cycle runs no placeholder lookup, moves no node and
removes no placeholder, and fires the completion signal exactly once, but
it also never invokes the `complete` callback: the early `return` at
script.js line 127 leaves `handleScriptLoaded` before line 160, so the
claim that `onComplete` still fires is false on this input. -/
theorem c1_counterexample :
    (drainFrom [vetoOpts] (initSys [])).1.trace.count
        { id := "a", k := EKind.completeCalled } = 0 ∧
    (drainFrom [vetoOpts] (initSys [])).1.trace.count
        { id := "a", k := EKind.placeholderLookup } = 0 ∧
    (drainFrom [vetoOpts] (initSys [])).1.trace.count
        { id := "a", k := EKind.nodeMoved } = 0 ∧
    (drainFrom [vetoOpts] (initSys [])).1.trace.count
        { id := "a", k := EKind.placeholderRemoved } = 0 ∧
    (drainFrom [vetoOpts] (initSys [])).1.trace.count (sigEv "a") = 1 := by
  decide

/-- C1 (amended): for every deferred load whose `loaded` callback returns
`false`, the cycle trace is exactly invocation, element insertion, the
`loaded` call and the completion signal — the placeholder lookup, the
node moves, the placeholder removal and the `complete` callback are all
skipped, and the completion signal still fires exactly once. -/
theorem c1_onLoaded_veto (o : Opts) (s : Sys) (hd : o.defer = true)
    (hv : o.loaded = some CbBehavior.retFalse)
    (h1 : s.docWrite = none) (h2 : s.docWriteln = none) (hok : appendOk o s.body) :
    (drainFrom [o] s).1.trace =
      s.trace ++ [invEv o.id, { id := o.id, k := EKind.scriptAppended },
        { id := o.id, k := EKind.loadedCalled }, sigEv o.id] := by
  obtain ⟨dw, dwl, sdw, sdwl, w, bd, tr⟩ := s
  simp only at h1 h2 hok
  subst h1; subst h2
  obtain ⟨b1, ha, _⟩ := appendScriptRun_shape o
    ⟨WFn.tempWrite, WFn.tempWriteln, some dw, some dwl, w, bd, tr ++ [invEv o.id]⟩ hok
  obtain ⟨b2, w2, hw, _⟩ := applyScriptWrites_shape o.scriptWrites
    ⟨WFn.tempWrite, WFn.tempWriteln, some dw, some dwl, w, b1,
      tr ++ [invEv o.id, { id := o.id, k := EKind.scriptAppended }]⟩
  have hw' : applyScriptWrites o.scriptWrites
      ⟨WFn.tempWrite, WFn.tempWriteln, some dw, some dwl, w, b1,
        tr ++ [invEv o.id, { id := o.id, k := EKind.scriptAppended }]⟩
      = ⟨WFn.tempWrite, WFn.tempWriteln, some dw, some dwl, w2, b2,
        tr ++ [invEv o.id, { id := o.id, k := EKind.scriptAppended }]⟩ := by
    rw [hw]
  rw [drainFrom_cons o [] ⟨dw, dwl, none, none, w, bd, tr⟩ hd hok]
  show (drainFrom [] (afterCycle o ⟨dw, dwl, none, none, w, bd, tr⟩)).1.trace = _
  rw [show drainFrom [] (afterCycle o ⟨dw, dwl, none, none, w, bd, tr⟩)
        = (afterCycle o ⟨dw, dwl, none, none, w, bd, tr⟩, false) from rfl]
  show (clearWrites (restoreDocWrites (logEv (sigEv o.id)
    (cycleOut o ⟨dw, dwl, none, none, w, bd, tr⟩).1))).trace = _
  rw [show cycleOut o ⟨dw, dwl, none, none, w, bd, tr⟩
        = (⟨WFn.tempWrite, WFn.tempWriteln, some dw, some dwl, w2, b2,
            tr ++ [invEv o.id, { id := o.id, k := EKind.scriptAppended },
              { id := o.id, k := EKind.loadedCalled }]⟩, false) from by
      simp [cycleOut, overrideDocWrites, logEv, ha, hw', handleScriptLoaded, hv]]
  simp [clearWrites, restoreDocWrites, logEv, List.append_assoc]

/-- C1 witness for the amended statement: the concrete vetoing request. -/
theorem c1_onLoaded_veto_witness :
    (drainFrom [vetoOpts] (initSys [])).1.trace =
      [invEv "a", { id := "a", k := EKind.scriptAppended },
       { id := "a", k := EKind.loadedCalled }, sigEv "a"] := by
  have h := c1_onLoaded_veto vetoOpts (initSys []) rfl rfl rfl rfl (Or.inl rfl)
  simpa [vetoOpts, initSys] using h

/-- C2: draining a worklist of deferred requests with distinct ids (and
reachable placement targets) from the ready-transition state invokes the
executor strictly in worklist order without overlap: request `k`'s
completion signal occurs exactly once, request `k+1`'s executor
invocation occurs exactly once, and the former precedes the latter in the
trace. -/
theorem c2_sequential_drain (L : List Opts) (s : Sys) (k : Nat) (hk : k + 1 < L.length)
    (hdef : ∀ o ∈ L, o.defer = true)
    (hnd : (ids L).Nodup)
    (h1 : s.docWrite = none) (h2 : s.docWriteln = none) (ht : s.trace = [])
    (hok : ∀ o ∈ L, appendOk o s.body) :
    (drainFrom L s).1.trace.count (sigEv ((L.get ⟨k, Nat.lt_of_succ_lt hk⟩).id)) = 1 ∧
    (drainFrom L s).1.trace.count (invEv ((L.get ⟨k + 1, hk⟩).id)) = 1 ∧
    [sigEv ((L.get ⟨k, Nat.lt_of_succ_lt hk⟩).id),
     invEv ((L.get ⟨k + 1, hk⟩).id)].Sublist (drainFrom L s).1.trace := by
  obtain ⟨δ, htr, _, hsig, hinv, hord⟩ := drainTraceSpec L s hdef hnd h1 h2 hok
  rw [htr, ht]
  simp only [List.nil_append]
  have hmemk : ((L.get ⟨k, Nat.lt_of_succ_lt hk⟩).id) ∈ ids L :=
    List.mem_map_of_mem (·.id) (List.get_mem L k (Nat.lt_of_succ_lt hk))
  have hmemk1 : ((L.get ⟨k + 1, hk⟩).id) ∈ ids L :=
    List.mem_map_of_mem (·.id) (List.get_mem L (k + 1) hk)
  refine ⟨?_, ?_, (hord k (k + 1) (Nat.lt_of_succ_lt hk) hk (Nat.lt_succ_self k)).2⟩
  · rw [hsig]
    exact List.count_eq_one_of_mem hnd hmemk
  · rw [hinv]
    exact List.count_eq_one_of_mem hnd hmemk1

/-- C2 witness: two deferred requests "a" then "b". -/
theorem c2_sequential_drain_witness :
    (drainFrom [sampleOpts "a", sampleOpts "b"] (initSys [])).1.trace.count (sigEv "a") = 1 ∧
    (drainFrom [sampleOpts "a", sampleOpts "b"] (initSys [])).1.trace.count (invEv "b") = 1 ∧
    [sigEv "a", invEv "b"].Sublist
      (drainFrom [sampleOpts "a", sampleOpts "b"] (initSys [])).1.trace := by
  have h := c2_sequential_drain [sampleOpts "a", sampleOpts "b"] (initSys []) 0 (by decide)
    (by decide) (by decide) rfl rfl rfl (by decide)
  simpa [sampleOpts] using h

/-- C5: from an empty pending worklist, enqueueing a request with
`order: 1` and then a request with `order: 0` yields the worklist with
the `order: 0` request first, and after the ready transition the
`order: 0` request completes (its completion signal fires) before the
`order: 1` request. -/
theorem c5_order_scenario (A B : Opts) (s : Sys)
    (hA : A.order = some 1) (hB : B.order = some 0) (hAB : A.id ≠ B.id)
    (hdA : A.defer = true) (hdB : B.defer = true)
    (h1 : s.docWrite = none) (h2 : s.docWriteln = none) (ht : s.trace = [])
    (hokA : appendOk A s.body) (hokB : appendOk B s.body) :
    enqueue (enqueue [] A) B = [B, A] ∧
    (drainFrom (enqueue (enqueue [] A) B) s).1.trace.count (sigEv B.id) = 1 ∧
    (drainFrom (enqueue (enqueue [] A) B) s).1.trace.count (sigEv A.id) = 1 ∧
    [sigEv B.id, sigEv A.id].Sublist
      (drainFrom (enqueue (enqueue [] A) B) s).1.trace := by
  have hq : enqueue (enqueue [] A) B = [B, A] := by
    simp [enqueue, hA, hB, spliceInsert]
  rw [hq]
  have hdef : ∀ o ∈ [B, A], o.defer = true := by
    intro o ho
    rcases List.mem_cons.mp ho with rfl | ho
    · exact hdB
    rcases List.mem_cons.mp ho with rfl | ho
    · exact hdA
    · simp at ho
  have hnd : (ids [B, A]).Nodup := by
    simp [ids]
    exact fun h => hAB h.symm
  have hok : ∀ o ∈ [B, A], appendOk o s.body := by
    intro o ho
    rcases List.mem_cons.mp ho with rfl | ho
    · exact hokB
    rcases List.mem_cons.mp ho with rfl | ho
    · exact hokA
    · simp at ho
  obtain ⟨δ, htr, _, hsig, _, hord⟩ := drainTraceSpec [B, A] s hdef hnd h1 h2 hok
  have htr' : (drainFrom [B, A] s).1.trace = δ := by
    rw [htr, ht]
    simp
  refine ⟨rfl, ?_, ?_, ?_⟩ <;> rw [htr']
  · rw [hsig]
    exact List.count_eq_one_of_mem hnd
      (List.mem_map_of_mem (·.id) (List.mem_cons_self B [A]))
  · rw [hsig]
    exact List.count_eq_one_of_mem hnd
      (List.mem_map_of_mem (·.id) (List.mem_cons_of_mem B (List.mem_cons_self A [])))
  · exact (hord 0 1 (by simp) (by simp) (by omega)).1

/-- C5 witness: concrete requests enqueued with `order: 1` then
`order: 0`. -/
theorem c5_order_scenario_witness :
    enqueue (enqueue [] { sampleOpts "a" with order := some 1 })
        { sampleOpts "b" with order := some 0 }
      = [{ sampleOpts "b" with order := some 0 }, { sampleOpts "a" with order := some 1 }] ∧
    (drainFrom (enqueue (enqueue [] { sampleOpts "a" with order := some 1 })
        { sampleOpts "b" with order := some 0 }) (initSys [])).1.trace.count (sigEv "b") = 1 ∧
    (drainFrom (enqueue (enqueue [] { sampleOpts "a" with order := some 1 })
        { sampleOpts "b" with order := some 0 }) (initSys [])).1.trace.count (sigEv "a") = 1 ∧
    [sigEv "b", sigEv "a"].Sublist
      (drainFrom (enqueue (enqueue [] { sampleOpts "a" with order := some 1 })
        { sampleOpts "b" with order := some 0 }) (initSys [])).1.trace := by
  have h := c5_order_scenario { sampleOpts "a" with order := some 1 }
    { sampleOpts "b" with order := some 0 } (initSys []) rfl rfl (by decide) rfl rfl
    rfl rfl rfl (Or.inl rfl) (Or.inl rfl)
  simpa [sampleOpts] using h

end ScriptJs
